import Mathlib

set_option linter.unusedSectionVars false

/-!
Shallow embedding of the node-based lock-free MPMC ring buffer
(`node_based.go`, package `lfring`) and proofs about it.

The Go code manipulates `uint64` counters (`head`, `tail`, per-slot `step`)
and a slice `element` of nodes.  We embed machine integers as `Nat` with an
explicit `% 2^64` wherever the Go code performs `uint64` arithmetic, and the
slice as a `List` updated functionally.  The operations are modelled with
their sequential (single-thread) semantics: an atomic load reads the current
field, and a `CompareAndSwapUint64` whose expected value was just loaded from
the same location always succeeds, because no other thread runs in between.
A CAS-failure branch of the Go code is therefore never taken in this model;
the stamp-check failure branches are taken exactly as in the source.

Indexing note: Go computes `(oldHead+i) & r.mask` on `uint64`, i.e. the sum
is reduced mod `2^64` before the bitwise and.  Since `mask < 2^64` holds for
every constructed buffer, `((x % 2^64) &&& mask) = x &&& mask`, so we write
the index uniformly as `pos &&& mask` (`slotIdx`).
-/

namespace lfring

/-- Size of the `uint64` value space; all Go arithmetic is reduced mod this. -/
def U64 : Nat := 2 ^ 64

/-- One storage cell of the ring: generation stamp `step` plus payload
`value` (the `_padding` field of the Go struct has no semantic content). -/
structure node (α : Type) where
  step : Nat
  value : α
  deriving DecidableEq

/-- The ring buffer state: `head`/`tail` position counters, `mask` and the
node slice `element` (padding fields omitted, pointers flattened). -/
structure nodeBased (α : Type) where
  head : Nat
  tail : Nat
  mask : Nat
  element : List (node α)
  deriving DecidableEq

variable {α : Type} [Inhabited α]

/-- Constructor `newNodeBased`: `capacity` nodes, node `i` stamped `i`,
`head = tail = 0`, `mask = capacity - 1` (computed as `uint64` subtraction,
hence the wraparound form). -/
def newNodeBased (capacity : Nat) : nodeBased α :=
  { head := 0
    tail := 0
    mask := (capacity + (U64 - 1)) % U64
    element := (List.range capacity).map fun i => { step := i, value := default } }

/-- The slot index used by every element access in the source:
`position & mask`. -/
def slotIdx (r : nodeBased α) (pos : Nat) : Nat :=
  pos &&& r.mask

/-- Read the node at logical position `pos` (out-of-range reads return a
dummy node; they never occur on a constructed buffer, see the bounds
theorems). -/
def nodeAt (r : nodeBased α) (pos : Nat) : node α :=
  r.element.getD (slotIdx r pos) { step := 0, value := default }

/-- Write the node at logical position `pos`. -/
def setNode (r : nodeBased α) (pos : Nat) (nd : node α) : nodeBased α :=
  { r with element := r.element.set (slotIdx r pos) nd }

/-- `Offer`: load `tail`, check the slot stamp equals `tail`, CAS `tail`
forward (always succeeds sequentially), store the value and publish stamp
`step + 1`. -/
def Offer (r : nodeBased α) (value : α) : Bool × nodeBased α :=
  let oldTail := r.tail
  let tailNode := nodeAt r oldTail
  let oldStep := tailNode.step
  if oldStep ≠ oldTail then
    (false, r)
  else
    let r1 : nodeBased α := { r with tail := (oldTail + 1) % U64 }
    (true, setNode r1 oldTail { step := (tailNode.step + 1) % U64, value := value })

/-- `Poll`: load `head`, check the slot stamp equals `head + 1`, CAS `head`
forward (always succeeds sequentially), read the value and re-arm the slot
with stamp `oldStep + mask`.  On failure the zero value (`default`) is
returned, as in Go. -/
def Poll (r : nodeBased α) : (α × Bool) × nodeBased α :=
  let oldHead := r.head
  let headNode := nodeAt r oldHead
  let oldStep := headNode.step
  if oldStep ≠ (oldHead + 1) % U64 then
    ((default, false), r)
  else
    let r1 : nodeBased α := { r with head := (oldHead + 1) % U64 }
    ((headNode.value, true),
      setNode r1 oldHead { step := (oldStep + r.mask) % U64, value := headNode.value })

/-- The availability scan of `PollNBatched`: starting at position `pos`,
count consecutive slots whose stamp equals its expected ready-for-poll value.
`fuel` is the loop bound `min (n - count) 8` of the source (`i < n-count &&
available < 8`, and `available = i` throughout the Go loop). -/
def availLoop (r : nodeBased α) : Nat → Nat → Nat
  | _, 0 => 0
  | pos, fuel + 1 =>
    if (nodeAt r pos).step = (pos + 1) % U64 then 1 + availLoop r (pos + 1) fuel
    else 0

/-- The extraction loop of `PollNBatched`: for each claimed position read the
value, append it, and re-arm the stamp to `step + mask` exactly as `Poll`
does.  `pos` walks `oldHead + i`. -/
def extractLoop (r : nodeBased α) : Nat → Nat → List α × nodeBased α
  | _, 0 => ([], r)
  | pos, a + 1 =>
    let nd := nodeAt r pos
    let r1 := setNode r pos { step := (nd.step + r.mask) % U64, value := nd.value }
    let rest := extractLoop r1 (pos + 1) a
    (nd.value :: rest.1, rest.2)

/-- Outer loop of `PollNBatched` (`for count < n`): scan, stop at an empty
batch, otherwise CAS `head` forward by `available` (always succeeds
sequentially; the CAS-failure `continue` is never taken) and extract.
`fuel` bounds the iterations; `n` iterations always suffice because each
round makes `count` strictly larger. -/
def pollLoop (r : nodeBased α) (n : Nat) : Nat → List α → Nat → List α × Nat × nodeBased α
  | count, values, 0 => (values, count, r)
  | count, values, fuel + 1 =>
    if count < n then
      let oldHead := r.head
      let available := availLoop r oldHead (min (n - count) 8)
      if available = 0 then
        (values, count, r)
      else
        let r1 : nodeBased α := { r with head := (oldHead + available) % U64 }
        let ext := extractLoop r1 oldHead available
        pollLoop ext.2 n (count + available) (values ++ ext.1) fuel
    else (values, count, r)

/-- `PollNBatched n`: drain up to `n` items; `n = 0` returns immediately. -/
def PollNBatched (r : nodeBased α) (n : Nat) : List α × Nat × nodeBased α :=
  if n = 0 then ([], 0, r) else pollLoop r n 0 [] n

/-- `SingleProducerOffer`: repeatedly call the supplier (modelled as a pure
function of the call number `k`); stop returning the current state when it
reports `finish`, otherwise spin `Offer` on the value until placed.  In the
sequential model a failed `Offer` leaves the state unchanged, so the Go spin
loop `for !r.Offer(v) {}` either succeeds at once or never terminates; the
divergent case (and exhausted `fuel`) is modelled as `none`. -/
def SingleProducerOffer (r : nodeBased α) (supplier : Nat → α × Bool) :
    Nat → Nat → Option (nodeBased α)
  | _, 0 => none
  | k, fuel + 1 =>
    let s := supplier k
    if s.2 then some r
    else
      let o := Offer r s.1
      if o.1 then SingleProducerOffer o.2 supplier (k + 1) fuel
      else none

/-- Sequential reference: perform up to `n` `Poll` calls, stopping at the
first failure, returning the polled values in order and the final state. -/
def pollSeq : nodeBased α → Nat → List α × nodeBased α
  | r, 0 => ([], r)
  | r, n + 1 =>
    let p := Poll r
    if p.1.2 then
      let rest := pollSeq p.2 n
      (p.1.1 :: rest.1, rest.2)
    else ([], r)

/-- Offer each value of a list in turn, collecting the success booleans. -/
def offerList : nodeBased α → List α → List Bool × nodeBased α
  | r, [] => ([], r)
  | r, v :: vs =>
    let o := Offer r v
    let rest := offerList o.2 vs
    (o.1 :: rest.1, rest.2)

/-- One abstract client operation. -/
inductive Op (α : Type) where
  | offer : α → Op α
  | poll : Op α
  | pollN : Nat → Op α

/-- Run one operation, keeping the resulting state. -/
def runOp (r : nodeBased α) : Op α → nodeBased α
  | Op.offer v => (Offer r v).2
  | Op.poll => (Poll r).2
  | Op.pollN n => (PollNBatched r n).2.2

/-- Run a sequence of operations. -/
def runOps : nodeBased α → List (Op α) → nodeBased α
  | r, [] => r
  | r, op :: ops => runOps (runOp r op) ops

/-- Structural well-formedness of a buffer of capacity `2^k`: the mask and
slice length a constructed buffer has, a 64-bit `head`, and the documented
capacity precondition (a power of two, at least 2, representable). -/
def Wf (k : Nat) (r : nodeBased α) : Prop :=
  1 ≤ k ∧ k ≤ 63 ∧ r.mask = 2 ^ k - 1 ∧ r.element.length = 2 ^ k ∧ r.head < U64

/-- Capacity bookkeeping of a buffer constructed with `newNodeBased
capacity`: the fields every slot-index bound rests on. -/
def capOK (capacity : Nat) (r : nodeBased α) : Prop :=
  r.mask = capacity - 1 ∧ r.element.length = capacity

/-- Full abstraction invariant: the buffer of capacity `2^k` represents the
logical FIFO queue `q`, with `H` the total number of polls so far (so the
stored `head` is `H % 2^64` and the stored `tail` is `(H + q.length) %
2^64`).  Slots holding the `i`-th queued value carry stamp `H + i + 1`;
the remaining slots are re-armed for the producer with stamp equal to the
logical position at which they will next be offered. -/
def Inv (k H : Nat) (q : List α) (r : nodeBased α) : Prop :=
  r.mask = 2 ^ k - 1 ∧
  r.element.length = 2 ^ k ∧
  r.head = H % U64 ∧
  r.tail = (H + q.length) % U64 ∧
  q.length ≤ 2 ^ k ∧
  (∀ i, i < q.length →
    (nodeAt r (H + i)).step = (H + i + 1) % U64 ∧
    (nodeAt r (H + i)).value = q.getD i default) ∧
  (∀ j, j < 2 ^ k - q.length →
    (nodeAt r (H + q.length + j)).step = (H + q.length + j) % U64)

/-! ### Arithmetic and list helpers -/

theorem U64_pos : 0 < U64 := by
  unfold U64; positivity

theorem two_pow_lt_U64 {k : Nat} (hk : k ≤ 63) : 2 ^ k < U64 := by
  have h1 : (2 : Nat) ^ k ≤ 2 ^ 63 := Nat.pow_le_pow_right (by omega) hk
  have h2 : (2 : Nat) ^ 63 < 2 ^ 64 := by norm_num
  unfold U64; omega

theorem two_pow_dvd_U64 {k : Nat} (hk : k ≤ 64) : 2 ^ k ∣ U64 :=
  pow_dvd_pow 2 hk

theorem mod_U64_mod_pow {k : Nat} (hk : k ≤ 63) (x : Nat) :
    x % U64 % 2 ^ k = x % 2 ^ k :=
  Nat.mod_mod_of_dvd x (two_pow_dvd_U64 (by omega))

theorem mod_eq_mod_dvd {a b n : Nat} (hab : a ≤ b) (h : a % n = b % n) :
    n ∣ b - a :=
  (Nat.modEq_iff_dvd' hab).mp h

theorem add_mod_ne {C H d : Nat} (hd : 0 < d) (hdC : d < C) :
    H % C ≠ (H + d) % C := by
  intro h
  have := mod_eq_mod_dvd (Nat.le_add_right H d) h
  simp only [Nat.add_sub_cancel_left] at this
  exact absurd (Nat.le_of_dvd hd this) (by omega)

theorem window_mod_ne {C H i j : Nat} (hi : i < C) (hj : j < C) (hne : i ≠ j) :
    (H + i) % C ≠ (H + j) % C := by
  rcases Nat.lt_or_ge i j with h | h
  · have : H + j = (H + i) + (j - i) := by omega
    rw [this]
    exact add_mod_ne (by omega) (by omega)
  · have hlt : j < i := by omega
    have : H + i = (H + j) + (i - j) := by omega
    rw [this]
    exact (add_mod_ne (by omega) (by omega)).symm

theorem getD_set_eq {β : Type} (l : List β) (i : Nat) (a d : β)
    (h : i < l.length) : (l.set i a).getD i d = a := by
  induction l generalizing i with
  | nil => simp at h
  | cons x xs ih =>
    cases i with
    | zero => rfl
    | succ j =>
      simp only [List.set_cons_succ, List.getD_cons_succ]
      exact ih j (by simpa using h)

theorem getD_set_ne {β : Type} (l : List β) (i j : Nat) (a d : β)
    (h : i ≠ j) : (l.set i a).getD j d = l.getD j d := by
  induction l generalizing i j with
  | nil => simp [List.set_nil]
  | cons x xs ih =>
    cases i with
    | zero =>
      cases j with
      | zero => exact absurd rfl h
      | succ j' => simp [List.set_cons_zero, List.getD_cons_succ]
    | succ i' =>
      cases j with
      | zero => simp [List.set_cons_succ, List.getD_cons_zero]
      | succ j' =>
        simp only [List.set_cons_succ, List.getD_cons_succ]
        exact ih i' j' (by omega)

theorem getD_range_map {β : Type} (C i : Nat) (f : Nat → β) (d : β)
    (h : i < C) : (((List.range C).map f).getD i d) = f i := by
  rw [List.getD_eq_getElem?_getD, List.getElem?_map, List.getElem?_range h]
  rfl

/-! ### Structure-level helpers -/

theorem nodeBased_ext {a b : nodeBased α} (h1 : a.head = b.head)
    (h2 : a.tail = b.tail) (h3 : a.mask = b.mask)
    (h4 : a.element = b.element) : a = b := by
  cases a; cases b
  simp only [nodeBased.mk.injEq]
  exact ⟨h1, h2, h3, h4⟩

theorem slotIdx_eq_mod {k : Nat} {r : nodeBased α} (hm : r.mask = 2 ^ k - 1)
    (pos : Nat) : slotIdx r pos = pos % 2 ^ k := by
  unfold slotIdx
  rw [hm, Nat.and_pow_two_sub_one_eq_mod]

theorem setNode_head (r : nodeBased α) (p : Nat) (nd : node α) :
    (setNode r p nd).head = r.head := rfl

theorem setNode_tail (r : nodeBased α) (p : Nat) (nd : node α) :
    (setNode r p nd).tail = r.tail := rfl

theorem setNode_mask (r : nodeBased α) (p : Nat) (nd : node α) :
    (setNode r p nd).mask = r.mask := rfl

theorem setNode_length (r : nodeBased α) (p : Nat) (nd : node α) :
    (setNode r p nd).element.length = r.element.length := by
  unfold setNode
  simp [List.length_set]

theorem nodeAt_setTail (r : nodeBased α) (x p : Nat) :
    nodeAt { r with tail := x } p = nodeAt r p := rfl

theorem nodeAt_setHead (r : nodeBased α) (x p : Nat) :
    nodeAt { r with head := x } p = nodeAt r p := rfl

theorem nodeAt_congr_mod {k : Nat} {r : nodeBased α} (hm : r.mask = 2 ^ k - 1)
    {p p' : Nat} (h : p % 2 ^ k = p' % 2 ^ k) : nodeAt r p = nodeAt r p' := by
  unfold nodeAt
  rw [slotIdx_eq_mod hm, slotIdx_eq_mod hm, h]

theorem nodeAt_mod_U64 {k : Nat} {r : nodeBased α} (hm : r.mask = 2 ^ k - 1)
    (hk : k ≤ 63) (p : Nat) : nodeAt r (p % U64) = nodeAt r p :=
  nodeAt_congr_mod hm (mod_U64_mod_pow hk p)

theorem nodeAt_setNode_eq {k : Nat} {r : nodeBased α} {p p' : Nat}
    {nd : node α} (hm : r.mask = 2 ^ k - 1)
    (hlen : r.element.length = 2 ^ k) (h : p % 2 ^ k = p' % 2 ^ k) :
    nodeAt (setNode r p nd) p' = nd := by
  unfold nodeAt setNode
  simp only
  rw [slotIdx_eq_mod (r := { r with element := r.element.set (slotIdx r p) nd }) hm,
    ← h, ← slotIdx_eq_mod hm p]
  exact getD_set_eq _ _ _ _ (by rw [slotIdx_eq_mod hm, hlen]; exact Nat.mod_lt _ (by positivity))

theorem nodeAt_setNode_ne {k : Nat} {r : nodeBased α} {p p' : Nat}
    {nd : node α} (hm : r.mask = 2 ^ k - 1) (h : p % 2 ^ k ≠ p' % 2 ^ k) :
    nodeAt (setNode r p nd) p' = nodeAt r p' := by
  unfold nodeAt setNode
  simp only
  rw [slotIdx_eq_mod (r := { r with element := r.element.set (slotIdx r p) nd }) hm,
    slotIdx_eq_mod hm p, slotIdx_eq_mod hm p']
  exact getD_set_ne _ _ _ _ _ h

theorem newNodeBased_mask (c : Nat) (h1 : 1 ≤ c) (h2 : c ≤ U64) :
    (newNodeBased c : nodeBased α).mask = c - 1 := by
  unfold newNodeBased
  simp only
  have hc : c + (U64 - 1) = (c - 1) + U64 := by
    have := U64_pos; omega
  rw [hc, Nat.add_mod_right, Nat.mod_eq_of_lt (by have := U64_pos; omega)]

theorem newNodeBased_length (c : Nat) :
    (newNodeBased c : nodeBased α).element.length = c := by
  unfold newNodeBased
  simp

theorem nodeAt_new {k : Nat} (hk : k ≤ 63) (p : Nat) :
    nodeAt (newNodeBased (2 ^ k) : nodeBased α) p
      = { step := p % 2 ^ k, value := default } := by
  have hm : (newNodeBased (2 ^ k) : nodeBased α).mask = 2 ^ k - 1 :=
    newNodeBased_mask _ (Nat.one_le_two_pow) (le_of_lt (two_pow_lt_U64 hk))
  unfold nodeAt
  rw [slotIdx_eq_mod hm]
  unfold newNodeBased
  simp only
  exact getD_range_map _ _ _ _ (Nat.mod_lt _ (by positivity))

/-! ### Characterization of the single-step operations -/

theorem Offer_of_step_ne {r : nodeBased α} {v : α}
    (h : (nodeAt r r.tail).step ≠ r.tail) : Offer r v = (false, r) := by
  unfold Offer
  simp [h]

theorem Offer_of_step_eq {r : nodeBased α} {v : α}
    (h : (nodeAt r r.tail).step = r.tail) :
    Offer r v = (true,
      setNode { r with tail := (r.tail + 1) % U64 } r.tail
        { step := ((nodeAt r r.tail).step + 1) % U64, value := v }) := by
  unfold Offer
  simp [h]

theorem Poll_of_step_ne {r : nodeBased α}
    (h : (nodeAt r r.head).step ≠ (r.head + 1) % U64) :
    Poll r = ((default, false), r) := by
  unfold Poll
  simp [h]

theorem Poll_of_step_eq {r : nodeBased α}
    (h : (nodeAt r r.head).step = (r.head + 1) % U64) :
    Poll r = (((nodeAt r r.head).value, true),
      setNode { r with head := (r.head + 1) % U64 } r.head
        { step := ((nodeAt r r.head).step + r.mask) % U64,
          value := (nodeAt r r.head).value }) := by
  unfold Poll
  rw [if_neg (not_not_intro h)]

theorem mod_U64_add_mod_pow {k : Nat} (hk : k ≤ 63) (x j : Nat) :
    (x % U64 + j) % 2 ^ k = (x + j) % 2 ^ k := by
  calc (x % U64 + j) % 2 ^ k
      = (x % U64 % 2 ^ k + j) % 2 ^ k := (Nat.mod_add_mod _ _ _).symm
    _ = (x % 2 ^ k + j) % 2 ^ k := by rw [mod_U64_mod_pow hk]
    _ = (x + j) % 2 ^ k := Nat.mod_add_mod _ _ _

/-! ### Invariant preservation -/

theorem Offer_inv_lt {k H : Nat} {q : List α} {r : nodeBased α} (v : α)
    (hk1 : 1 ≤ k) (hk : k ≤ 63) (hInv : Inv k H q r)
    (hlt : q.length < 2 ^ k) :
    (Offer r v).1 = true ∧ Inv k H (q ++ [v]) (Offer r v).2 := by
  obtain ⟨hm, hlen, hh, ht, hql, hfull, hempty⟩ := hInv
  have hC : 0 < 2 ^ k := by positivity
  have hstep0 : (nodeAt r (H + q.length)).step = (H + q.length) % U64 := by
    have := hempty 0 (by omega)
    simpa using this
  have hcond : (nodeAt r r.tail).step = r.tail := by
    rw [ht, nodeAt_mod_U64 hm hk, hstep0]
  rw [Offer_of_step_eq hcond]
  have htailC : r.tail % 2 ^ k = (H + q.length) % 2 ^ k := by
    rw [ht]; exact mod_U64_mod_pow hk _
  have hm' : ({ r with tail := (r.tail + 1) % U64 } : nodeBased α).mask
      = 2 ^ k - 1 := hm
  have hlen' : ({ r with tail := (r.tail + 1) % U64 } : nodeBased α).element.length
      = 2 ^ k := hlen
  refine ⟨rfl, hm, ?_, hh, ?_, ?_, ?_, ?_⟩
  · rw [setNode_length]; exact hlen
  · show ((r.tail + 1) % U64) = (H + (q ++ [v]).length) % U64
    rw [ht, Nat.mod_add_mod, List.length_append, List.length_singleton]
    congr 1
  · simp only [List.length_append, List.length_singleton]; omega
  · intro i hi
    simp only [List.length_append, List.length_singleton] at hi
    rcases Nat.lt_or_ge i q.length with hiL | hiL
    · have hne : r.tail % 2 ^ k ≠ (H + i) % 2 ^ k := by
        rw [htailC]
        exact window_mod_ne hlt (by omega) (by omega)
      rw [nodeAt_setNode_ne hm' hne, nodeAt_setTail]
      refine ⟨(hfull i hiL).1, ?_⟩
      rw [(hfull i hiL).2]
      exact (List.getD_append _ _ _ i hiL).symm
    · have hiq : i = q.length := by omega
      subst hiq
      rw [nodeAt_setNode_eq hm' hlen' htailC]
      constructor
      · show ((nodeAt r r.tail).step + 1) % U64 = (H + q.length + 1) % U64
        rw [hcond, ht, Nat.mod_add_mod]
      · show v = (q ++ [v]).getD q.length default
        rw [List.getD_append_right _ _ _ _ (le_refl _)]
        simp
  · intro j hj
    simp only [List.length_append, List.length_singleton] at hj ⊢
    have hpos : H + (q.length + 1) + j = H + (q.length + 1 + j) := by omega
    have hne : r.tail % 2 ^ k ≠ (H + (q.length + 1) + j) % 2 ^ k := by
      rw [htailC, hpos]
      exact window_mod_ne hlt (by omega) (by omega)
    rw [nodeAt_setNode_ne hm' hne, nodeAt_setTail]
    have hpos2 : H + (q.length + 1) + j = H + q.length + (j + 1) := by omega
    rw [hpos2]
    exact hempty (j + 1) (by omega)

theorem Offer_inv_full {k H : Nat} {q : List α} {r : nodeBased α} (v : α)
    (hk1 : 1 ≤ k) (hk : k ≤ 63) (hInv : Inv k H q r)
    (hfl : q.length = 2 ^ k) : Offer r v = (false, r) := by
  obtain ⟨hm, hlen, hh, ht, hql, hfull, hempty⟩ := hInv
  have hC : 0 < 2 ^ k := by positivity
  have hCU : 2 ^ k < U64 := two_pow_lt_U64 hk
  have hstep0 : (nodeAt r H).step = (H + 1) % U64 := by
    have := (hfull 0 (by omega)).1
    simpa using this
  have hnt : nodeAt r r.tail = nodeAt r H := by
    rw [ht, nodeAt_mod_U64 hm hk]
    refine nodeAt_congr_mod hm ?_
    rw [hfl, Nat.add_mod_right]
  refine Offer_of_step_ne ?_
  rw [hnt, hstep0, ht, hfl]
  intro hcontra
  have hdvd : U64 ∣ (H + 2 ^ k) - (H + 1) :=
    mod_eq_mod_dvd (by omega) hcontra
  have hsub : (H + 2 ^ k) - (H + 1) = 2 ^ k - 1 := by omega
  rw [hsub] at hdvd
  have h2k1 : (2 : Nat) ^ 1 ≤ 2 ^ k := Nat.pow_le_pow_right (by omega) hk1
  have h2k : 2 ≤ 2 ^ k := by simpa using h2k1
  have := Nat.le_of_dvd (by omega) hdvd
  omega

theorem Poll_inv_nil {k H : Nat} {r : nodeBased α}
    (hk : k ≤ 63) (hInv : Inv k H ([] : List α) r) :
    Poll r = ((default, false), r) := by
  obtain ⟨hm, hlen, hh, ht, hql, hfull, hempty⟩ := hInv
  have hC : 0 < 2 ^ k := by positivity
  simp only [List.length_nil, Nat.add_zero, Nat.sub_zero] at hempty
  have hstep0 : (nodeAt r H).step = H % U64 := by
    have := hempty 0 hC
    simpa using this
  refine Poll_of_step_ne ?_
  rw [hh, nodeAt_mod_U64 hm hk, hstep0, Nat.mod_add_mod]
  intro hcontra
  have hdvd : U64 ∣ (H + 1) - H := mod_eq_mod_dvd (by omega) hcontra
  have h1 : (H + 1) - H = 1 := by omega
  rw [h1] at hdvd
  have := Nat.le_of_dvd (by omega) hdvd
  have := U64_pos
  have : U64 = 2 ^ 64 := rfl
  have h64 : (1 : Nat) < 2 ^ 64 := by norm_num
  omega

theorem Poll_inv_cons {k H : Nat} {v : α} {q : List α} {r : nodeBased α}
    (hk1 : 1 ≤ k) (hk : k ≤ 63) (hInv : Inv k H (v :: q) r) :
    (Poll r).1 = (v, true) ∧ Inv k (H + 1) q (Poll r).2 := by
  obtain ⟨hm, hlen, hh, ht, hql, hfull, hempty⟩ := hInv
  have hC : 0 < 2 ^ k := by positivity
  simp only [List.length_cons] at ht hql hfull hempty
  have hstep0 : (nodeAt r H).step = (H + 1) % U64 := by
    have := (hfull 0 (by omega)).1
    simpa using this
  have hval0 : (nodeAt r H).value = v := by
    have := (hfull 0 (by omega)).2
    simpa using this
  have hnh : nodeAt r r.head = nodeAt r H := by
    rw [hh, nodeAt_mod_U64 hm hk]
  have hcond : (nodeAt r r.head).step = (r.head + 1) % U64 := by
    rw [hnh, hstep0, hh, Nat.mod_add_mod]
  rw [Poll_of_step_eq hcond]
  have hheadC : r.head % 2 ^ k = H % 2 ^ k := by
    rw [hh]; exact mod_U64_mod_pow hk H
  have hm' : ({ r with head := (r.head + 1) % U64 } : nodeBased α).mask
      = 2 ^ k - 1 := hm
  have hlen' : ({ r with head := (r.head + 1) % U64 } : nodeBased α).element.length
      = 2 ^ k := hlen
  constructor
  · show ((nodeAt r r.head).value, true) = (v, true)
    rw [hnh, hval0]
  refine ⟨hm, ?_, ?_, ?_, by omega, ?_, ?_⟩
  · rw [setNode_length]; exact hlen
  · show (r.head + 1) % U64 = (H + 1) % U64
    rw [hh, Nat.mod_add_mod]
  · show r.tail = (H + 1 + q.length) % U64
    rw [ht]
    congr 1
    omega
  · intro i hi
    have heqp : H + 1 + i = H + (i + 1) := by omega
    have hne : r.head % 2 ^ k ≠ (H + 1 + i) % 2 ^ k := by
      rw [hheadC, heqp]
      calc H % 2 ^ k = (H + 0) % 2 ^ k := by rw [Nat.add_zero]
        _ ≠ (H + (i + 1)) % 2 ^ k :=
          window_mod_ne (by omega) (by omega) (by omega)
    rw [nodeAt_setNode_ne hm' hne, nodeAt_setHead, heqp]
    have hfi := hfull (i + 1) (by omega)
    refine ⟨?_, ?_⟩
    · exact hfi.1
    · rw [hfi.2]
      simp
  · intro j hj
    rcases Nat.lt_or_ge j (2 ^ k - (q.length + 1)) with hjlt | hjge
    · have heqp : H + 1 + q.length + j = H + (q.length + 1 + j) := by omega
      have hne : r.head % 2 ^ k ≠ (H + 1 + q.length + j) % 2 ^ k := by
        rw [hheadC, heqp]
        calc H % 2 ^ k = (H + 0) % 2 ^ k := by rw [Nat.add_zero]
          _ ≠ (H + (q.length + 1 + j)) % 2 ^ k :=
            window_mod_ne (by omega) (by omega) (by omega)
      rw [nodeAt_setNode_ne hm' hne, nodeAt_setHead]
      have hej := hempty j (by omega)
      have heqp2 : H + (q.length + 1) + j = H + 1 + q.length + j := by omega
      rw [heqp2] at hej
      exact hej
    · have hjeq : j = 2 ^ k - (q.length + 1) := by omega
      subst hjeq
      have hposC : H + 1 + q.length + (2 ^ k - (q.length + 1)) = H + 2 ^ k := by
        omega
      have heq : r.head % 2 ^ k
          = (H + 1 + q.length + (2 ^ k - (q.length + 1))) % 2 ^ k := by
        rw [hheadC, hposC, Nat.add_mod_right]
      rw [nodeAt_setNode_eq hm' hlen' heq]
      have hstepval : ((nodeAt r r.head).step + r.mask) % U64
          = (H + 2 ^ k) % U64 := by
        rw [hcond, hh, Nat.mod_add_mod]
        have hassoc : H % U64 + 1 + r.mask = H % U64 + (1 + r.mask) := by omega
        rw [hassoc, Nat.mod_add_mod, hm]
        congr 1
        omega
      show ((nodeAt r r.head).step + r.mask) % U64 = _
      rw [hstepval, hposC]

/-! ### The freshly constructed buffer -/

theorem Inv_new {k : Nat} (hk1 : 1 ≤ k) (hk : k ≤ 63) :
    Inv k 0 ([] : List α) (newNodeBased (2 ^ k)) := by
  have hCU : 2 ^ k < U64 := two_pow_lt_U64 hk
  have hm : (newNodeBased (2 ^ k) : nodeBased α).mask = 2 ^ k - 1 :=
    newNodeBased_mask _ Nat.one_le_two_pow (le_of_lt hCU)
  refine ⟨hm, newNodeBased_length _, ?_, ?_, by simp, ?_, ?_⟩
  · show (0 : Nat) = 0 % U64
    rw [Nat.zero_mod]
  · show (0 : Nat) = (0 + List.length []) % U64
    simp
  · intro i hi
    simp at hi
  · intro j hj
    simp only [List.length_nil, Nat.add_zero, Nat.zero_add, Nat.sub_zero] at hj ⊢
    rw [nodeAt_new hk]
    show j % 2 ^ k = j % U64
    rw [Nat.mod_eq_of_lt hj, Nat.mod_eq_of_lt (by omega)]

theorem Inv_wf {k H : Nat} {q : List α} {r : nodeBased α}
    (hk1 : 1 ≤ k) (hk : k ≤ 63) (hInv : Inv k H q r) : Wf k r := by
  obtain ⟨hm, hlen, hh, _, _, _, _⟩ := hInv
  exact ⟨hk1, hk, hm, hlen, by rw [hh]; exact Nat.mod_lt _ U64_pos⟩

/-! ### Unfolding equations for the recursive definitions -/

theorem pollSeq_zero (r : nodeBased α) : pollSeq r 0 = ([], r) := rfl

theorem pollSeq_succ (r : nodeBased α) (n : Nat) :
    pollSeq r (n + 1) =
      if (Poll r).1.2 then
        ((Poll r).1.1 :: (pollSeq (Poll r).2 n).1, (pollSeq (Poll r).2 n).2)
      else ([], r) := rfl

theorem offerList_nil (r : nodeBased α) : offerList r [] = ([], r) := rfl

theorem offerList_cons (r : nodeBased α) (v : α) (vs : List α) :
    offerList r (v :: vs) =
      ((Offer r v).1 :: (offerList (Offer r v).2 vs).1,
       (offerList (Offer r v).2 vs).2) := rfl

/-! ### `pollSeq` and `offerList` under the invariant -/

theorem pollSeq_inv : ∀ (n : Nat) {k H : Nat} {q : List α} {r : nodeBased α},
    1 ≤ k → k ≤ 63 → Inv k H q r →
    (pollSeq r n).1 = q.take n ∧
      Inv k (H + min n q.length) (q.drop n) (pollSeq r n).2 := by
  intro n
  induction n with
  | zero =>
    intro k H q r hk1 hk hInv
    rw [pollSeq_zero]
    refine ⟨by simp, ?_⟩
    simpa using hInv
  | succ n ih =>
    intro k H q r hk1 hk hInv
    cases q with
    | nil =>
      have hp := Poll_inv_nil hk hInv
      rw [pollSeq_succ, hp]
      simp only [Prod.fst, Prod.snd, if_neg (by simp : ¬((default : α), false).2 = true)]
      refine ⟨by simp, ?_⟩
      simpa using hInv
    | cons v q' =>
      have hp := Poll_inv_cons hk1 hk hInv
      have ih' := ih hk1 hk hp.2
      rw [pollSeq_succ, hp.1]
      simp only [if_pos rfl]
      constructor
      · show v :: (pollSeq (Poll r).2 n).1 = (v :: q').take (n + 1)
        rw [List.take_succ_cons, ih'.1]
      · show Inv k (H + min (n + 1) (v :: q').length) ((v :: q').drop (n + 1)) _
        rw [List.drop_succ_cons, List.length_cons, Nat.succ_min_succ]
        have harith : H + (min n q'.length + 1) = H + 1 + min n q'.length := by
          omega
        rw [harith]
        exact ih'.2

theorem offerList_inv : ∀ (vs : List α) {k H : Nat} {q : List α}
    {r : nodeBased α}, 1 ≤ k → k ≤ 63 → Inv k H q r →
    q.length + vs.length ≤ 2 ^ k →
    (offerList r vs).1 = List.replicate vs.length true ∧
      Inv k H (q ++ vs) (offerList r vs).2 := by
  intro vs
  induction vs with
  | nil =>
    intro k H q r hk1 hk hInv hle
    rw [offerList_nil]
    refine ⟨by simp, by simpa using hInv⟩
  | cons v vs ih =>
    intro k H q r hk1 hk hInv hle
    simp only [List.length_cons] at hle
    have ho := Offer_inv_lt v hk1 hk hInv (by omega)
    have ih' := ih hk1 hk ho.2 (by simp; omega)
    rw [offerList_cons, ho.1]
    constructor
    · rw [ih'.1]
      simp [List.replicate_succ]
    · have happ : (q ++ [v]) ++ vs = q ++ v :: vs := by simp
      rw [← happ]
      exact ih'.2

/-! ### The availability scan -/

theorem availLoop_fuel_zero (r : nodeBased α) (pos : Nat) :
    availLoop r pos 0 = 0 := rfl

theorem availLoop_succ (r : nodeBased α) (pos fuel : Nat) :
    availLoop r pos (fuel + 1) =
      if (nodeAt r pos).step = (pos + 1) % U64 then 1 + availLoop r (pos + 1) fuel
      else 0 := rfl

theorem availLoop_le (r : nodeBased α) :
    ∀ (fuel pos : Nat), availLoop r pos fuel ≤ fuel := by
  intro fuel
  induction fuel with
  | zero => intro pos; rw [availLoop_fuel_zero]
  | succ f ih =>
    intro pos
    rw [availLoop_succ]
    split
    · have := ih (pos + 1); omega
    · omega

theorem availLoop_spec (r : nodeBased α) :
    ∀ (fuel pos j : Nat), j < availLoop r pos fuel →
      (nodeAt r (pos + j)).step = (pos + j + 1) % U64 := by
  intro fuel
  induction fuel with
  | zero => intro pos j h; rw [availLoop_fuel_zero] at h; omega
  | succ f ih =>
    intro pos j h
    rw [availLoop_succ] at h
    by_cases hc : (nodeAt r pos).step = (pos + 1) % U64
    · rw [if_pos hc] at h
      cases j with
      | zero => simpa using hc
      | succ j' =>
        have hrec := ih (pos + 1) j' (by omega)
        have heq : pos + (j' + 1) = pos + 1 + j' := by omega
        rw [heq]
        exact hrec
    · rw [if_neg hc] at h
      omega

theorem availLoop_eq_zero (r : nodeBased α) (pos fuel : Nat) (hf : 0 < fuel)
    (h : availLoop r pos fuel = 0) :
    (nodeAt r pos).step ≠ (pos + 1) % U64 := by
  cases fuel with
  | zero => omega
  | succ f =>
    rw [availLoop_succ] at h
    intro hc
    rw [if_pos hc] at h
    omega

theorem availLoop_le_cap {k : Nat} (r : nodeBased α) (hm : r.mask = 2 ^ k - 1)
    (hk : k ≤ 63) (pos fuel : Nat) (hf : fuel ≤ 8) :
    availLoop r pos fuel ≤ 2 ^ k := by
  have hC : 0 < 2 ^ k := by positivity
  by_contra hcon
  push_neg at hcon
  have h0 := availLoop_spec r fuel pos 0 (by omega)
  have hC := availLoop_spec r fuel pos (2 ^ k) (by omega)
  have hnode : nodeAt r (pos + 2 ^ k) = nodeAt r (pos + 0) := by
    refine nodeAt_congr_mod hm ?_
    rw [Nat.add_mod_right, Nat.add_zero]
  rw [hnode] at hC
  have heq : (pos + 0 + 1) % U64 = (pos + 2 ^ k + 1) % U64 := by
    rw [← h0, ← hC]
  have hdvd : U64 ∣ (pos + 2 ^ k + 1) - (pos + 0 + 1) :=
    mod_eq_mod_dvd (by omega) heq
  have hsub : (pos + 2 ^ k + 1) - (pos + 0 + 1) = 2 ^ k := by omega
  rw [hsub] at hdvd
  have hle := Nat.le_of_dvd (by positivity) hdvd
  have := two_pow_lt_U64 hk
  omega

/-! ### The extraction loop -/

theorem extractLoop_zero (r : nodeBased α) (pos : Nat) :
    extractLoop r pos 0 = ([], r) := rfl

theorem extractLoop_succ (r : nodeBased α) (pos a : Nat) :
    extractLoop r pos (a + 1) =
      ((nodeAt r pos).value ::
        (extractLoop (setNode r pos
          { step := ((nodeAt r pos).step + r.mask) % U64,
            value := (nodeAt r pos).value }) (pos + 1) a).1,
       (extractLoop (setNode r pos
          { step := ((nodeAt r pos).step + r.mask) % U64,
            value := (nodeAt r pos).value }) (pos + 1) a).2) := rfl

theorem extractLoop_length :
    ∀ (a : Nat) (r : nodeBased α) (pos : Nat),
      (extractLoop r pos a).1.length = a := by
  intro a
  induction a with
  | zero => intro r pos; rfl
  | succ a ih =>
    intro r pos
    rw [extractLoop_succ]
    simp only [List.length_cons]
    rw [ih]

theorem extractLoop_pres :
    ∀ (a : Nat) (r : nodeBased α) (pos : Nat),
      (extractLoop r pos a).2.mask = r.mask ∧
      (extractLoop r pos a).2.element.length = r.element.length ∧
      (extractLoop r pos a).2.head = r.head ∧
      (extractLoop r pos a).2.tail = r.tail := by
  intro a
  induction a with
  | zero => intro r pos; exact ⟨rfl, rfl, rfl, rfl⟩
  | succ a ih =>
    intro r pos
    rw [extractLoop_succ]
    obtain ⟨h1, h2, h3, h4⟩ := ih (setNode r pos
      { step := ((nodeAt r pos).step + r.mask) % U64,
        value := (nodeAt r pos).value }) (pos + 1)
    refine ⟨?_, ?_, ?_, ?_⟩
    · rw [h1, setNode_mask]
    · rw [h2, setNode_length]
    · rw [h3, setNode_head]
    · rw [h4, setNode_tail]

theorem extractLoop_congr {k : Nat} :
    ∀ (a : Nat) (r : nodeBased α) (p p' : Nat), r.mask = 2 ^ k - 1 →
      p % 2 ^ k = p' % 2 ^ k → extractLoop r p a = extractLoop r p' a := by
  intro a
  induction a with
  | zero => intro r p p' hm h; rfl
  | succ a ih =>
    intro r p p' hm h
    rw [extractLoop_succ, extractLoop_succ]
    have hnode : nodeAt r p = nodeAt r p' := nodeAt_congr_mod hm h
    have hidx : slotIdx r p = slotIdx r p' := by
      rw [slotIdx_eq_mod hm, slotIdx_eq_mod hm, h]
    have hset : ∀ nd : node α, setNode r p nd = setNode r p' nd := by
      intro nd
      unfold setNode
      rw [hidx]
    rw [hnode, hset]
    have hmod : (p + 1) % 2 ^ k = (p' + 1) % 2 ^ k := by
      calc (p + 1) % 2 ^ k = (p % 2 ^ k + 1) % 2 ^ k := (Nat.mod_add_mod _ _ _).symm
        _ = (p' % 2 ^ k + 1) % 2 ^ k := by rw [h]
        _ = (p' + 1) % 2 ^ k := Nat.mod_add_mod _ _ _
    rw [ih _ (p + 1) (p' + 1) (by rw [setNode_mask]; exact hm) hmod]

theorem updHead_mask (r : nodeBased α) (x : Nat) :
    ({ r with head := x } : nodeBased α).mask = r.mask := rfl

theorem pollSeq_succ_of_poll {r s : nodeBased α} {v : α} (n : Nat)
    (h : Poll r = ((v, true), s)) :
    pollSeq r (n + 1) = (v :: (pollSeq s n).1, (pollSeq s n).2) := by
  rw [pollSeq_succ, h]
  rfl

theorem pollSeq_succ_of_fail {r s : nodeBased α} {v : α} (n : Nat)
    (h : Poll r = ((v, false), s)) : pollSeq r (n + 1) = ([], r) := by
  rw [pollSeq_succ, h]
  rfl

/-- One batched claim of `a` ready slots (CAS `head` forward by `a`, then
extract) produces exactly the same values and the same final state as `a`
successful sequential `Poll` calls, and the remaining `m - a` polls continue
from that state. -/
theorem batch_eq_pollSeq {k : Nat} :
    ∀ (a : Nat) (r : nodeBased α) (m : Nat), Wf k r → a ≤ 2 ^ k → a ≤ m →
    (∀ j, j < a → (nodeAt r (r.head + j)).step = (r.head + j + 1) % U64) →
    pollSeq r m
      = ((extractLoop { r with head := (r.head + a) % U64 } r.head a).1
          ++ (pollSeq (extractLoop { r with head := (r.head + a) % U64 }
                r.head a).2 (m - a)).1,
         (pollSeq (extractLoop { r with head := (r.head + a) % U64 }
                r.head a).2 (m - a)).2) := by
  intro a
  induction a with
  | zero =>
    intro r m hwf _ _ _
    obtain ⟨hk1, hk, hm, hlen, hhead⟩ := hwf
    have hr : ({ r with head := (r.head + 0) % U64 } : nodeBased α) = r := by
      refine nodeBased_ext ?_ rfl rfl rfl
      show (r.head + 0) % U64 = r.head
      rw [Nat.add_zero, Nat.mod_eq_of_lt hhead]
    rw [hr, extractLoop_zero]
    simp
  | succ a ih =>
    intro r m hwf haC ham hscan
    obtain ⟨hk1, hk, hm, hlen, hhead⟩ := hwf
    have hC : 0 < 2 ^ k := by positivity
    cases m with
    | zero => omega
    | succ m' =>
      have hs0 : (nodeAt r r.head).step = (r.head + 1) % U64 := by
        have := hscan 0 (by omega)
        simpa using this
      have hpoll := Poll_of_step_eq hs0
      have hm1 : (setNode { r with head := (r.head + 1) % U64 } r.head
          { step := ((nodeAt r r.head).step + r.mask) % U64,
            value := (nodeAt r r.head).value }).mask = 2 ^ k - 1 := hm
      have hlen1 : (setNode { r with head := (r.head + 1) % U64 } r.head
          { step := ((nodeAt r r.head).step + r.mask) % U64,
            value := (nodeAt r r.head).value }).element.length = 2 ^ k := by
        rw [setNode_length]
        exact hlen
      have hwf1 : Wf k (setNode { r with head := (r.head + 1) % U64 } r.head
          { step := ((nodeAt r r.head).step + r.mask) % U64,
            value := (nodeAt r r.head).value }) := by
        refine ⟨hk1, hk, hm1, hlen1, ?_⟩
        show (r.head + 1) % U64 < U64
        exact Nat.mod_lt _ U64_pos
      have hscan1 : ∀ j, j < a →
          (nodeAt (setNode { r with head := (r.head + 1) % U64 } r.head
            { step := ((nodeAt r r.head).step + r.mask) % U64,
              value := (nodeAt r r.head).value })
            ((r.head + 1) % U64 + j)).step
            = ((r.head + 1) % U64 + j + 1) % U64 := by
        intro j hj
        have hmd : ((r.head + 1) % U64 + j) % 2 ^ k
            = (r.head + 1 + j) % 2 ^ k := mod_U64_add_mod_pow hk _ j
        rw [nodeAt_congr_mod hm1 hmd]
        have hmu : ({ r with head := (r.head + 1) % U64 } : nodeBased α).mask
            = 2 ^ k - 1 := hm
        have hne : r.head % 2 ^ k ≠ (r.head + 1 + j) % 2 ^ k := by
          have h1 : r.head + 1 + j = r.head + (1 + j) := by omega
          rw [h1]
          calc r.head % 2 ^ k = (r.head + 0) % 2 ^ k := by rw [Nat.add_zero]
            _ ≠ (r.head + (1 + j)) % 2 ^ k :=
              window_mod_ne hC (by omega) (by omega)
        rw [nodeAt_setNode_ne hmu hne, nodeAt_setHead]
        have h2 : r.head + 1 + j = r.head + (j + 1) := by omega
        rw [h2, hscan (j + 1) (by omega)]
        have h3 : (r.head + 1) % U64 + j + 1 = (r.head + 1) % U64 + (j + 1) := by
          omega
        rw [h3, Nat.mod_add_mod]
        congr 1
        omega
      have ih' := ih (setNode { r with head := (r.head + 1) % U64 } r.head
          { step := ((nodeAt r r.head).step + r.mask) % U64,
            value := (nodeAt r r.head).value }) m' hwf1 (by omega) (by omega)
          hscan1
      -- normalize the projections of the post-Poll state inside the IH
      have hshead : (setNode { r with head := (r.head + 1) % U64 } r.head
          { step := ((nodeAt r r.head).step + r.mask) % U64,
            value := (nodeAt r r.head).value }).head = (r.head + 1) % U64 := rfl
      have hstail : (setNode { r with head := (r.head + 1) % U64 } r.head
          { step := ((nodeAt r r.head).step + r.mask) % U64,
            value := (nodeAt r r.head).value }).tail = r.tail := rfl
      have hsmask : (setNode { r with head := (r.head + 1) % U64 } r.head
          { step := ((nodeAt r r.head).step + r.mask) % U64,
            value := (nodeAt r r.head).value }).mask = r.mask := rfl
      rw [hshead, hstail, hsmask] at ih'
      -- the batch state of the IH is the batch state of the (a+1)-claim
      have hA : nodeBased.mk (((r.head + 1) % U64 + a) % U64) r.tail r.mask
            ((setNode { r with head := (r.head + 1) % U64 } r.head
              { step := ((nodeAt r r.head).step + r.mask) % U64,
                value := (nodeAt r r.head).value }).element)
          = setNode { r with head := (r.head + (a + 1)) % U64 } r.head
              { step := ((nodeAt r r.head).step + r.mask) % U64,
                value := (nodeAt r r.head).value } := by
        refine nodeBased_ext ?_ rfl rfl rfl
        show ((r.head + 1) % U64 + a) % U64 = (r.head + (a + 1)) % U64
        rw [Nat.mod_add_mod]
        congr 1
        omega
      rw [hA] at ih'
      have hcg : extractLoop (setNode { r with head := (r.head + (a + 1)) % U64 }
            r.head
            { step := ((nodeAt r r.head).step + r.mask) % U64,
              value := (nodeAt r r.head).value }) ((r.head + 1) % U64) a
          = extractLoop (setNode { r with head := (r.head + (a + 1)) % U64 }
              r.head
              { step := ((nodeAt r r.head).step + r.mask) % U64,
                value := (nodeAt r r.head).value }) (r.head + 1) a := by
        refine @extractLoop_congr α _ k a _ _ _ ?_ ?_
        · show r.mask = 2 ^ k - 1
          exact hm
        · exact mod_U64_mod_pow hk _
      rw [hcg] at ih'
      rw [extractLoop_succ, nodeAt_setHead, updHead_mask, List.cons_append,
        Nat.add_sub_add_right, pollSeq_succ_of_poll m' hpoll, ih']

/-! ### The outer loop of `PollNBatched` -/

theorem pollLoop_fuel_zero (r : nodeBased α) (n count : Nat) (values : List α) :
    pollLoop r n count values 0 = (values, count, r) := rfl

theorem pollLoop_succ (r : nodeBased α) (n count : Nat) (values : List α)
    (fuel : Nat) :
    pollLoop r n count values (fuel + 1) =
      if count < n then
        if availLoop r r.head (min (n - count) 8) = 0 then (values, count, r)
        else
          pollLoop (extractLoop
              { r with head := (r.head + availLoop r r.head (min (n - count) 8)) % U64 }
              r.head (availLoop r r.head (min (n - count) 8))).2 n
            (count + availLoop r r.head (min (n - count) 8))
            (values ++ (extractLoop
              { r with head := (r.head + availLoop r r.head (min (n - count) 8)) % U64 }
              r.head (availLoop r r.head (min (n - count) 8))).1)
            fuel
      else (values, count, r) := rfl

/-- The whole batched loop is exactly the sequential poll loop: it returns
the values `n - count` sequential `Poll` calls would return (appended to the
accumulator), the count grows by their number, and the final state agrees. -/
theorem pollLoop_eq {k : Nat} :
    ∀ (fuel : Nat) (r : nodeBased α) (n count : Nat) (values : List α),
    Wf k r → n - count ≤ fuel →
    pollLoop r n count values fuel
      = (values ++ (pollSeq r (n - count)).1,
         count + (pollSeq r (n - count)).1.length,
         (pollSeq r (n - count)).2) := by
  intro fuel
  induction fuel with
  | zero =>
    intro r n count values hwf hfc
    have h0 : n - count = 0 := by omega
    rw [pollLoop_fuel_zero, h0, pollSeq_zero]
    simp
  | succ fuel ihf =>
    intro r n count values hwf hfc
    rw [pollLoop_succ]
    by_cases hcn : count < n
    · rw [if_pos hcn]
      by_cases hz : availLoop r r.head (min (n - count) 8) = 0
      · rw [if_pos hz]
        have hfail := availLoop_eq_zero r r.head _ (by omega) hz
        have hpf : Poll r = ((default, false), r) := Poll_of_step_ne hfail
        obtain ⟨t, ht⟩ : ∃ t, n - count = t + 1 := ⟨n - count - 1, by omega⟩
        rw [ht, pollSeq_succ_of_fail t hpf]
        simp
      · rw [if_neg hz]
        obtain ⟨hk1, hk, hm, hlen, hhead⟩ := hwf
        have hscan := fun j hj =>
          availLoop_spec r (min (n - count) 8) r.head j hj
        have hle8 : availLoop r r.head (min (n - count) 8) ≤ min (n - count) 8 :=
          availLoop_le r _ _
        have hcap := availLoop_le_cap r hm hk r.head (min (n - count) 8)
          (by omega)
        have hbatch := batch_eq_pollSeq (availLoop r r.head (min (n - count) 8))
          r (n - count) ⟨hk1, hk, hm, hlen, hhead⟩ hcap (by omega) hscan
        have hpres := extractLoop_pres (availLoop r r.head (min (n - count) 8))
          { r with head := (r.head + availLoop r r.head (min (n - count) 8)) % U64 }
          r.head
        have hwf2 : Wf k (extractLoop
            { r with head := (r.head + availLoop r r.head (min (n - count) 8)) % U64 }
            r.head (availLoop r r.head (min (n - count) 8))).2 := by
          refine ⟨hk1, hk, ?_, ?_, ?_⟩
          · rw [hpres.1]
            exact hm
          · rw [hpres.2.1]
            exact hlen
          · rw [hpres.2.2.1]
            show (r.head + availLoop r r.head (min (n - count) 8)) % U64 < U64
            exact Nat.mod_lt _ U64_pos
        have hrec := ihf (extractLoop
            { r with head := (r.head + availLoop r r.head (min (n - count) 8)) % U64 }
            r.head (availLoop r r.head (min (n - count) 8))).2 n
          (count + availLoop r r.head (min (n - count) 8))
          (values ++ (extractLoop
            { r with head := (r.head + availLoop r r.head (min (n - count) 8)) % U64 }
            r.head (availLoop r r.head (min (n - count) 8))).1)
          hwf2 (by omega)
        rw [hrec, hbatch, Nat.sub_sub]
        simp only [Prod.mk.injEq]
        refine ⟨?_, ?_, trivial⟩
        · rw [List.append_assoc]
        · rw [List.length_append, extractLoop_length]
          omega
    · rw [if_neg hcn]
      have h0 : n - count = 0 := by omega
      rw [h0, pollSeq_zero]
      simp

/-- `PollNBatched n` refines `n` sequential polls: same value list, the
returned count is that list's length, and the final state agrees. -/
theorem PollNBatched_eq_pollSeq {k : Nat} (r : nodeBased α) (n : Nat)
    (hwf : Wf k r) :
    PollNBatched r n
      = ((pollSeq r n).1, (pollSeq r n).1.length, (pollSeq r n).2) := by
  by_cases hn : n = 0
  · subst hn
    rw [pollSeq_zero]
    rfl
  · unfold PollNBatched
    rw [if_neg hn, pollLoop_eq n r n 0 [] hwf (by omega)]
    simp

/-! ### Mask and length preservation (bounds bookkeeping) -/

theorem updHead_elem (r : nodeBased α) (x : Nat) :
    ({ r with head := x } : nodeBased α).element = r.element := rfl

theorem pollLoop_pres :
    ∀ (fuel : Nat) (r : nodeBased α) (n count : Nat) (values : List α),
    (pollLoop r n count values fuel).2.2.mask = r.mask ∧
    (pollLoop r n count values fuel).2.2.element.length = r.element.length := by
  intro fuel
  induction fuel with
  | zero => intro r n count values; exact ⟨rfl, rfl⟩
  | succ fuel ih =>
    intro r n count values
    rw [pollLoop_succ]
    by_cases hcn : count < n
    · rw [if_pos hcn]
      by_cases hz : availLoop r r.head (min (n - count) 8) = 0
      · rw [if_pos hz]; exact ⟨rfl, rfl⟩
      · rw [if_neg hz]
        have hp := extractLoop_pres (availLoop r r.head (min (n - count) 8))
          { r with head := (r.head + availLoop r r.head (min (n - count) 8)) % U64 }
          r.head
        have hr := ih (extractLoop
            { r with head := (r.head + availLoop r r.head (min (n - count) 8)) % U64 }
            r.head (availLoop r r.head (min (n - count) 8))).2 n
          (count + availLoop r r.head (min (n - count) 8))
          (values ++ (extractLoop
            { r with head := (r.head + availLoop r r.head (min (n - count) 8)) % U64 }
            r.head (availLoop r r.head (min (n - count) 8))).1)
        constructor
        · rw [hr.1, hp.1, updHead_mask]
        · rw [hr.2, hp.2.1, updHead_elem]
    · rw [if_neg hcn]; exact ⟨rfl, rfl⟩

theorem PollNBatched_pres (r : nodeBased α) (n : Nat) :
    (PollNBatched r n).2.2.mask = r.mask ∧
    (PollNBatched r n).2.2.element.length = r.element.length := by
  by_cases hn : n = 0
  · subst hn; exact ⟨rfl, rfl⟩
  · unfold PollNBatched; rw [if_neg hn]; exact pollLoop_pres n r n 0 []

/-! ### Invariant preservation along arbitrary operation sequences -/

theorem runOp_inv {k H : Nat} {q : List α} {r : nodeBased α}
    (hk1 : 1 ≤ k) (hk : k ≤ 63) (hInv : Inv k H q r) (op : Op α) :
    ∃ H' q', Inv k H' (q' : List α) (runOp r op) := by
  cases op with
  | offer v =>
    rcases Nat.lt_or_ge q.length (2 ^ k) with hlt | hge
    · exact ⟨H, q ++ [v], (Offer_inv_lt v hk1 hk hInv hlt).2⟩
    · have hfl : q.length = 2 ^ k := le_antisymm hInv.2.2.2.2.1 hge
      have hful := Offer_inv_full v hk1 hk hInv hfl
      show ∃ H' q', Inv k H' q' (Offer r v).2
      rw [hful]
      exact ⟨H, q, hInv⟩
  | poll =>
    cases q with
    | nil =>
      have hnil := Poll_inv_nil hk hInv
      show ∃ H' q', Inv k H' q' (Poll r).2
      rw [hnil]
      exact ⟨H, [], hInv⟩
    | cons v q' => exact ⟨H + 1, q', (Poll_inv_cons hk1 hk hInv).2⟩
  | pollN n =>
    have hwf := Inv_wf hk1 hk hInv
    show ∃ H' q', Inv k H' q' (PollNBatched r n).2.2
    rw [PollNBatched_eq_pollSeq r n hwf]
    exact ⟨H + min n q.length, q.drop n, (pollSeq_inv n hk1 hk hInv).2⟩

theorem runOps_inv :
    ∀ (ops : List (Op α)) {k H : Nat} {q : List α} {r : nodeBased α},
    1 ≤ k → k ≤ 63 → Inv k H q r →
    ∃ H' q', Inv k H' (q' : List α) (runOps r ops) := by
  intro ops
  induction ops with
  | nil => intro k H q r hk1 hk hInv; exact ⟨H, q, hInv⟩
  | cons op ops ih =>
    intro k H q r hk1 hk hInv
    obtain ⟨H', q', h'⟩ := runOp_inv hk1 hk hInv op
    exact ih hk1 hk h'

/-! ### `SingleProducerOffer` -/

theorem SPO_fuel_zero (r : nodeBased α) (supplier : Nat → α × Bool) (j : Nat) :
    SingleProducerOffer r supplier j 0 = none := rfl

theorem SPO_succ (r : nodeBased α) (supplier : Nat → α × Bool) (j fuel : Nat) :
    SingleProducerOffer r supplier j (fuel + 1) =
      if (supplier j).2 then some r
      else if (Offer r (supplier j).1).1 then
        SingleProducerOffer (Offer r (supplier j).1).2 supplier (j + 1) fuel
      else none := rfl

theorem SPO_some_done :
    ∀ (fuel : Nat) (r : nodeBased α) (supplier : Nat → α × Bool) (j : Nat)
      (r2 : nodeBased α),
    SingleProducerOffer r supplier j fuel = some r2 →
    ∃ i, j ≤ i ∧ (supplier i).2 = true := by
  intro fuel
  induction fuel with
  | zero =>
    intro r supplier j r2 h
    rw [SPO_fuel_zero] at h
    exact absurd h (by simp)
  | succ fuel ih =>
    intro r supplier j r2 h
    rw [SPO_succ] at h
    by_cases hs : (supplier j).2 = true
    · exact ⟨j, le_refl j, hs⟩
    · rw [if_neg hs] at h
      by_cases ho : (Offer r (supplier j).1).1 = true
      · rw [if_pos ho] at h
        obtain ⟨i, hi, hdone⟩ := ih _ supplier (j + 1) r2 h
        exact ⟨i, by omega, hdone⟩
      · rw [if_neg ho] at h
        exact absurd h (by simp)

/-- Offering into a buffer whose `tail` points at a slot whose stamp equals
that `tail` succeeds. -/
theorem offer_ready (s : nodeBased α) (w : α) (t : Nat)
    (hstep : (nodeAt s t).step = t) :
    (Offer { s with tail := t } w).1 = true := by
  have hcond : (nodeAt { s with tail := t }
      ({ s with tail := t } : nodeBased α).tail).step
      = ({ s with tail := t } : nodeBased α).tail := by
    show (nodeAt { s with tail := t } t).step = t
    rw [nodeAt_setTail]
    exact hstep
  rw [Offer_of_step_eq hcond]

/-! ### The claims -/

/-- Claim C1: starting from a freshly constructed buffer of capacity `2^k`,
every sequence of `Offer`, `Poll` and `PollNBatched` operations preserves the
invariant that the unsigned 64-bit distance from `head` to `tail` is some
`d ≤ capacity` — i.e. `head <= tail` and `tail - head <= capacity` as
unsigned distance. -/
theorem claim_C1 (k : Nat) (hk1 : 1 ≤ k) (hk : k ≤ 63) (ops : List (Op α)) :
    ∃ d, d ≤ 2 ^ k ∧
      (runOps (newNodeBased (2 ^ k) : nodeBased α) ops).tail
        = ((runOps (newNodeBased (2 ^ k) : nodeBased α) ops).head + d) % U64 := by
  obtain ⟨H', q', hinv⟩ := runOps_inv ops hk1 hk (Inv_new hk1 hk)
  obtain ⟨hm, hlen, hh, ht, hql, _, _⟩ := hinv
  refine ⟨q'.length, hql, ?_⟩
  rw [ht, hh, Nat.mod_add_mod]

/-- Claim C1 witness at capacity 4 and a concrete operation sequence. -/
theorem claim_C1_witness :
    ((1 ≤ 2 ∧ 2 ≤ 63) ∧ True) ∧
      (∃ d, d ≤ 2 ^ 2 ∧
        (runOps (newNodeBased (2 ^ 2) : nodeBased Nat)
            [Op.offer 5, Op.offer 6, Op.poll, Op.pollN 3]).tail
          = ((runOps (newNodeBased (2 ^ 2) : nodeBased Nat)
              [Op.offer 5, Op.offer 6, Op.poll, Op.pollN 3]).head + d) % U64) :=
  ⟨⟨⟨by omega, by omega⟩, trivial⟩,
    claim_C1 2 (by omega) (by omega) [Op.offer 5, Op.offer 6, Op.poll, Op.pollN 3]⟩

/-- Claim C2 counterexample: on a fresh capacity-4 buffer, after `Offer 10`
a successful `Poll` claims head position `h = 0`; the polled slot's stamp is
then `4` (namely `h + 1 + mask = h + capacity`), not `h + mask = 3` as the
claim states. -/
theorem claim_C2_counterexample :
    (Poll (Offer (newNodeBased 4 : nodeBased Nat) 10).2).1.2 = true ∧
    (nodeAt (Poll (Offer (newNodeBased 4 : nodeBased Nat) 10).2).2 0).step = 4 ∧
    ¬ (nodeAt (Poll (Offer (newNodeBased 4 : nodeBased Nat) 10).2).2 0).step
        = 0 + (Poll (Offer (newNodeBased 4 : nodeBased Nat) 10).2).2.mask := by
  decide

/-- Claim C2 (amended): after a successful `Poll` that claimed head position
`h`, the polled slot's stamp is stored to `oldStep + mask = h + 1 + mask`
(that is, `h + capacity`), which is the stamp value the next producer cycle
at logical position `h + capacity` expects, so a subsequent `Offer` whose
tail equals `h + 1 + mask` finds the slot ready for offering and succeeds. -/
theorem claim_C2_amended (k : Nat) (r : nodeBased α) (v : α) (hwf : Wf k r)
    (hs : (Poll r).1.2 = true) :
    (nodeAt (Poll r).2 r.head).step = (r.head + 1 + r.mask) % U64 ∧
    (Offer { (Poll r).2 with tail := (r.head + 1 + r.mask) % U64 } v).1
      = true := by
  obtain ⟨hk1, hk, hm, hlen, hhead⟩ := hwf
  have hC : 0 < 2 ^ k := by positivity
  have hcond : (nodeAt r r.head).step = (r.head + 1) % U64 := by
    by_contra hne
    rw [Poll_of_step_ne hne] at hs
    simp at hs
  rw [Poll_of_step_eq hcond]
  show (nodeAt (setNode { r with head := (r.head + 1) % U64 } r.head
      { step := ((nodeAt r r.head).step + r.mask) % U64,
        value := (nodeAt r r.head).value }) r.head).step
      = (r.head + 1 + r.mask) % U64 ∧
    (Offer { (setNode { r with head := (r.head + 1) % U64 } r.head
        { step := ((nodeAt r r.head).step + r.mask) % U64,
          value := (nodeAt r r.head).value }) with
        tail := (r.head + 1 + r.mask) % U64 } v).1 = true
  have hmB : ({ r with head := (r.head + 1) % U64 } : nodeBased α).mask
      = 2 ^ k - 1 := hm
  have hlenB : ({ r with head := (r.head + 1) % U64 } : nodeBased α).element.length
      = 2 ^ k := hlen
  have hm2 : (setNode { r with head := (r.head + 1) % U64 } r.head
      { step := ((nodeAt r r.head).step + r.mask) % U64,
        value := (nodeAt r r.head).value }).mask = 2 ^ k - 1 := hm
  have hpart1 : (nodeAt (setNode { r with head := (r.head + 1) % U64 } r.head
      { step := ((nodeAt r r.head).step + r.mask) % U64,
        value := (nodeAt r r.head).value }) r.head).step
      = (r.head + 1 + r.mask) % U64 := by
    rw [nodeAt_setNode_eq hmB hlenB rfl]
    show ((nodeAt r r.head).step + r.mask) % U64 = (r.head + 1 + r.mask) % U64
    rw [hcond, Nat.mod_add_mod]
  refine ⟨hpart1, ?_⟩
  have hTidx : ((r.head + 1 + r.mask) % U64) % 2 ^ k = r.head % 2 ^ k := by
    rw [mod_U64_mod_pow hk, hm]
    have harith : r.head + 1 + (2 ^ k - 1) = r.head + 2 ^ k := by omega
    rw [harith, Nat.add_mod_right]
  have hstep2 : (nodeAt (setNode { r with head := (r.head + 1) % U64 } r.head
      { step := ((nodeAt r r.head).step + r.mask) % U64,
        value := (nodeAt r r.head).value }) ((r.head + 1 + r.mask) % U64)).step
      = (r.head + 1 + r.mask) % U64 := by
    rw [nodeAt_congr_mod hm2 hTidx]
    exact hpart1
  exact offer_ready _ v _ hstep2

/-- Claim C2 amended-theorem witness: capacity 4, one offered value, the
hypotheses discharged concretely. -/
theorem claim_C2_witness :
    (Wf 2 ((Offer (newNodeBased 4 : nodeBased Nat) 10).2) ∧
      (Poll (Offer (newNodeBased 4 : nodeBased Nat) 10).2).1.2 = true) ∧
    ((nodeAt (Poll (Offer (newNodeBased 4 : nodeBased Nat) 10).2).2
        (Offer (newNodeBased 4 : nodeBased Nat) 10).2.head).step
      = ((Offer (newNodeBased 4 : nodeBased Nat) 10).2.head + 1
          + (Offer (newNodeBased 4 : nodeBased Nat) 10).2.mask) % U64 ∧
    (Offer { (Poll (Offer (newNodeBased 4 : nodeBased Nat) 10).2).2 with
        tail := ((Offer (newNodeBased 4 : nodeBased Nat) 10).2.head + 1
          + (Offer (newNodeBased 4 : nodeBased Nat) 10).2.mask) % U64 } 7).1
      = true) :=
  ⟨⟨by unfold Wf; decide, by decide⟩,
    claim_C2_amended 2 (Offer (newNodeBased 4 : nodeBased Nat) 10).2 7
      (by unfold Wf; decide) (by decide)⟩

/-- Claim C4: on a fresh capacity-4 buffer the concrete trace of the spec:
four offers succeed, a fifth fails (full), a poll returns `(10, true)`, the
retried offer of `50` then succeeds, four more polls return `20, 30, 40, 50`,
and a final poll fails (empty). -/
theorem claim_C4 :
    (offerList (newNodeBased 4 : nodeBased Nat) [10, 20, 30, 40]).1
        = [true, true, true, true] ∧
    (Offer (offerList (newNodeBased 4 : nodeBased Nat) [10, 20, 30, 40]).2 50).1
        = false ∧
    (Poll (Offer (offerList (newNodeBased 4 : nodeBased Nat)
        [10, 20, 30, 40]).2 50).2).1 = (10, true) ∧
    (Offer (Poll (Offer (offerList (newNodeBased 4 : nodeBased Nat)
        [10, 20, 30, 40]).2 50).2).2 50).1 = true ∧
    (pollSeq (Offer (Poll (Offer (offerList (newNodeBased 4 : nodeBased Nat)
        [10, 20, 30, 40]).2 50).2).2 50).2 4).1 = [20, 30, 40, 50] ∧
    (Poll (pollSeq (Offer (Poll (Offer (offerList (newNodeBased 4 : nodeBased Nat)
        [10, 20, 30, 40]).2 50).2).2 50).2 4).2).1.2 = false := by
  decide

/-- Claim C5: offering exactly `C = 2^k` values into a fresh buffer succeeds
throughout, then polling exactly `C` times returns those values in offer
order, and afterwards the buffer is logically empty: one more `Poll` fails
(and leaves the state unchanged) while one more `Offer` succeeds. -/
theorem claim_C5 (k : Nat) (vs : List α) (w : α) (hk1 : 1 ≤ k) (hk : k ≤ 63)
    (hlen : vs.length = 2 ^ k) :
    (offerList (newNodeBased (2 ^ k) : nodeBased α) vs).1
        = List.replicate (2 ^ k) true ∧
    (pollSeq (offerList (newNodeBased (2 ^ k) : nodeBased α) vs).2 (2 ^ k)).1
        = vs ∧
    Poll (pollSeq (offerList (newNodeBased (2 ^ k) : nodeBased α) vs).2
        (2 ^ k)).2
      = ((default, false),
         (pollSeq (offerList (newNodeBased (2 ^ k) : nodeBased α) vs).2
            (2 ^ k)).2) ∧
    (Offer (pollSeq (offerList (newNodeBased (2 ^ k) : nodeBased α) vs).2
        (2 ^ k)).2 w).1 = true := by
  have h0 := offerList_inv vs hk1 hk (Inv_new hk1 hk) (by simp [hlen])
  have hinv : Inv k 0 vs (offerList (newNodeBased (2 ^ k) : nodeBased α) vs).2 := by
    simpa using h0.2
  have h1 := pollSeq_inv (2 ^ k) hk1 hk hinv
  have hdrop : vs.drop (2 ^ k) = [] := by
    rw [← hlen, List.drop_length]
  have hinv2 : Inv k (2 ^ k) ([] : List α)
      (pollSeq (offerList (newNodeBased (2 ^ k) : nodeBased α) vs).2 (2 ^ k)).2 := by
    have h2 := h1.2
    rw [hlen, Nat.min_self, hdrop] at h2
    simpa using h2
  refine ⟨?_, ?_, ?_, ?_⟩
  · rw [h0.1, hlen]
  · rw [h1.1, ← hlen, List.take_length]
  · exact Poll_inv_nil hk hinv2
  · refine (Offer_inv_lt w hk1 hk hinv2 ?_).1
    show ([] : List α).length < 2 ^ k
    simp

/-- Claim C5 witness at capacity 4 with values `[1, 2, 3, 4]`. -/
theorem claim_C5_witness :
    ((1 ≤ 2 ∧ 2 ≤ 63) ∧ [1, 2, 3, 4].length = 2 ^ 2) ∧
    ((offerList (newNodeBased (2 ^ 2) : nodeBased Nat) [1, 2, 3, 4]).1
        = List.replicate (2 ^ 2) true ∧
    (pollSeq (offerList (newNodeBased (2 ^ 2) : nodeBased Nat) [1, 2, 3, 4]).2
        (2 ^ 2)).1 = [1, 2, 3, 4] ∧
    Poll (pollSeq (offerList (newNodeBased (2 ^ 2) : nodeBased Nat)
        [1, 2, 3, 4]).2 (2 ^ 2)).2
      = ((default, false),
         (pollSeq (offerList (newNodeBased (2 ^ 2) : nodeBased Nat)
            [1, 2, 3, 4]).2 (2 ^ 2)).2) ∧
    (Offer (pollSeq (offerList (newNodeBased (2 ^ 2) : nodeBased Nat)
        [1, 2, 3, 4]).2 (2 ^ 2)).2 7).1 = true) :=
  ⟨⟨⟨by omega, by omega⟩, by decide⟩,
    claim_C5 2 [1, 2, 3, 4] 7 (by omega) (by omega) (by decide)⟩

/-- Claim C3: for every well-formed buffer state and every `n`,
`PollNBatched n` returns exactly the values that `n` sequential `Poll` calls
return, in the same order, with count equal to that list's length, and
leaves the buffer in the state those sequential polls leave it in.  In
particular, with at least `n` ready items it returns the same `n` values as
`n` polls; with only `j < n` ready items it returns those `j` values with
count `j` and the state of `j` sequential polls. -/
theorem claim_C3 (k : Nat) (r : nodeBased α) (n : Nat) (hwf : Wf k r) :
    PollNBatched r n
      = ((pollSeq r n).1, (pollSeq r n).1.length, (pollSeq r n).2) :=
  PollNBatched_eq_pollSeq r n hwf

/-- Claim C3 witness: capacity 4 holding two values, draining two. -/
theorem claim_C3_witness :
    Wf 2 ((offerList (newNodeBased 4 : nodeBased Nat) [3, 5]).2) ∧
    PollNBatched ((offerList (newNodeBased 4 : nodeBased Nat) [3, 5]).2) 2
      = ((pollSeq ((offerList (newNodeBased 4 : nodeBased Nat) [3, 5]).2) 2).1,
         (pollSeq ((offerList (newNodeBased 4 : nodeBased Nat) [3, 5]).2) 2).1.length,
         (pollSeq ((offerList (newNodeBased 4 : nodeBased Nat) [3, 5]).2) 2).2) :=
  ⟨by unfold Wf; decide, claim_C3 2 _ 2 (by unfold Wf; decide)⟩

/-- Claim C6: with capacity `C = 2^k`, after `C` successful offers on a
fresh buffer and zero polls the next `Offer` fails and changes nothing; and
on a buffer holding no published items, `Poll` returns `(zero, false)`
without advancing `head` (the state is returned unchanged). -/
theorem claim_C6 (k : Nat) (hk1 : 1 ≤ k) (hk : k ≤ 63) :
    (∀ (vs : List α) (w : α), vs.length = 2 ^ k →
      (offerList (newNodeBased (2 ^ k) : nodeBased α) vs).1
          = List.replicate (2 ^ k) true ∧
      Offer (offerList (newNodeBased (2 ^ k) : nodeBased α) vs).2 w
          = (false, (offerList (newNodeBased (2 ^ k) : nodeBased α) vs).2)) ∧
    (∀ (r : nodeBased α) (H : Nat), Inv k H ([] : List α) r →
      Poll r = ((default, false), r)) := by
  constructor
  · intro vs w hlen
    have h0 := offerList_inv vs hk1 hk (Inv_new hk1 hk) (by simp [hlen])
    have hinv : Inv k 0 vs (offerList (newNodeBased (2 ^ k) : nodeBased α) vs).2 := by
      simpa using h0.2
    exact ⟨by rw [h0.1, hlen], Offer_inv_full w hk1 hk hinv hlen⟩
  · intro r H hinv
    exact Poll_inv_nil hk hinv

/-- Claim C6 witness at capacity 4. -/
theorem claim_C6_witness :
    ((1 ≤ 2 ∧ 2 ≤ 63) ∧ [1, 2, 3, 4].length = 2 ^ 2 ∧
      Inv 2 0 ([] : List Nat) (newNodeBased (2 ^ 2))) ∧
    ((offerList (newNodeBased (2 ^ 2) : nodeBased Nat) [1, 2, 3, 4]).1
        = List.replicate (2 ^ 2) true ∧
     Offer (offerList (newNodeBased (2 ^ 2) : nodeBased Nat) [1, 2, 3, 4]).2 9
        = (false, (offerList (newNodeBased (2 ^ 2) : nodeBased Nat) [1, 2, 3, 4]).2)) ∧
    Poll (newNodeBased (2 ^ 2) : nodeBased Nat)
        = ((default, false), (newNodeBased (2 ^ 2) : nodeBased Nat)) :=
  ⟨⟨⟨by omega, by omega⟩, by decide, by unfold Inv; decide⟩,
    (claim_C6 2 (by omega) (by omega)).1 [1, 2, 3, 4] 9 (by decide),
    (claim_C6 2 (by omega) (by omega)).2 (newNodeBased (2 ^ 2)) 0
      (by unfold Inv; decide)⟩

/-- Claim C7: whenever `Offer` returns `false`, and whenever `Poll` returns
with success `false`, the buffer state is completely unchanged (`head`,
`tail`, every slot stamp and value). -/
theorem claim_C7 (r : nodeBased α) (v : α) :
    ((Offer r v).1 = false → (Offer r v).2 = r) ∧
    ((Poll r).1.2 = false → (Poll r).2 = r) := by
  constructor
  · intro h
    by_cases hc : (nodeAt r r.tail).step = r.tail
    · rw [Offer_of_step_eq hc] at h
      simp at h
    · rw [Offer_of_step_ne hc]
  · intro h
    by_cases hc : (nodeAt r r.head).step = (r.head + 1) % U64
    · rw [Poll_of_step_eq hc] at h
      simp at h
    · rw [Poll_of_step_ne hc]

/-- Claim C7 witness: a failing Offer on a full buffer and a failing Poll on
an empty buffer, both leaving the state unchanged. -/
theorem claim_C7_witness :
    ((Offer (offerList (newNodeBased 4 : nodeBased Nat) [1, 2, 3, 4]).2 9).1
        = false ∧
      (Offer (offerList (newNodeBased 4 : nodeBased Nat) [1, 2, 3, 4]).2 9).2
        = (offerList (newNodeBased 4 : nodeBased Nat) [1, 2, 3, 4]).2) ∧
    ((Poll (newNodeBased 4 : nodeBased Nat)).1.2 = false ∧
      (Poll (newNodeBased 4 : nodeBased Nat)).2 = newNodeBased 4) :=
  ⟨⟨by decide,
      (claim_C7 (offerList (newNodeBased 4 : nodeBased Nat) [1, 2, 3, 4]).2 9).1
        (by decide)⟩,
   ⟨by decide, (claim_C7 (newNodeBased 4 : nodeBased Nat) 9).2 (by decide)⟩⟩

/-- Claim C8: `PollNBatched n` returns the FIFO prefix of the logical queue
of length `min n (queue length)`; the returned count equals the returned
list's length and is at most `n`; and `PollNBatched 0` returns an empty
result immediately with the buffer unchanged. -/
theorem claim_C8 (k H : Nat) (q : List α) (r : nodeBased α) (n : Nat)
    (hk1 : 1 ≤ k) (hk : k ≤ 63) (hInv : Inv k H q r) :
    (PollNBatched r n).1 = q.take n ∧
    (PollNBatched r n).2.1 = (q.take n).length ∧
    (PollNBatched r n).2.1 ≤ n ∧
    PollNBatched r 0 = ([], 0, r) := by
  have hwf := Inv_wf hk1 hk hInv
  have heq := PollNBatched_eq_pollSeq r n hwf
  have hps := pollSeq_inv n hk1 hk hInv
  refine ⟨?_, ?_, ?_, rfl⟩
  · rw [heq]
    exact hps.1
  · rw [heq]
    show (pollSeq r n).1.length = (q.take n).length
    rw [hps.1]
  · rw [heq]
    show (pollSeq r n).1.length ≤ n
    rw [hps.1, List.length_take]
    exact min_le_left _ _

/-- Claim C8 witness: capacity 4 holding `[3, 5]`, draining one. -/
theorem claim_C8_witness :
    ((1 ≤ 2 ∧ 2 ≤ 63) ∧
      Inv 2 0 [3, 5] ((offerList (newNodeBased 4 : nodeBased Nat) [3, 5]).2)) ∧
    ((PollNBatched ((offerList (newNodeBased 4 : nodeBased Nat) [3, 5]).2) 1).1
        = [3, 5].take 1 ∧
     (PollNBatched ((offerList (newNodeBased 4 : nodeBased Nat) [3, 5]).2) 1).2.1
        = ([3, 5].take 1).length ∧
     (PollNBatched ((offerList (newNodeBased 4 : nodeBased Nat) [3, 5]).2) 1).2.1
        ≤ 1 ∧
     PollNBatched ((offerList (newNodeBased 4 : nodeBased Nat) [3, 5]).2) 0
        = ([], 0, (offerList (newNodeBased 4 : nodeBased Nat) [3, 5]).2)) :=
  ⟨⟨⟨by omega, by omega⟩, by unfold Inv; decide⟩,
    claim_C8 2 0 [3, 5] _ 1 (by omega) (by omega) (by unfold Inv; decide)⟩

/-- Claim C9: `SingleProducerOffer` terminates exactly when the supplier
reports `isDone = true`: (1) whenever it returns, some supplier call at or
after the starting index reported done; (2) as soon as a supplier call
reports done the loop returns immediately with the state untouched; (3)
otherwise each supplied value is offered (the sequential spin: a placed
value advances the loop; a failed `Offer` leaves the state unchanged, so
the spin never terminates, modelled by `none`). -/
theorem claim_C9 (supplier : Nat → α × Bool) (r : nodeBased α) (j fuel : Nat) :
    ((∃ r2, SingleProducerOffer r supplier j fuel = some r2) →
      ∃ i, j ≤ i ∧ (supplier i).2 = true) ∧
    ((supplier j).2 = true →
      SingleProducerOffer r supplier j (fuel + 1) = some r) ∧
    ((supplier j).2 = false → (Offer r (supplier j).1).1 = true →
      SingleProducerOffer r supplier j (fuel + 1)
        = SingleProducerOffer (Offer r (supplier j).1).2 supplier (j + 1) fuel) := by
  refine ⟨?_, ?_, ?_⟩
  · rintro ⟨r2, h⟩
    exact SPO_some_done fuel r supplier j r2 h
  · intro h
    rw [SPO_succ, if_pos h]
  · intro h ho
    rw [SPO_succ, if_neg (by rw [h]; simp), if_pos ho]

/-- Claim C9 witness: a supplier that reports done immediately makes the
loop return the untouched state. -/
theorem claim_C9_witness :
    ((fun j => ((0 : Nat), true)) 0).2 = true ∧
    SingleProducerOffer (newNodeBased 4 : nodeBased Nat)
        (fun j => ((0 : Nat), true)) 0 (3 + 1)
      = some (newNodeBased 4 : nodeBased Nat) :=
  ⟨rfl,
    (claim_C9 (fun j => ((0 : Nat), true)) (newNodeBased 4 : nodeBased Nat) 0 3).2.1
      rfl⟩

/-- Claim C10: for every constructed buffer with capacity at least 1 —
powers of two or not — the slot index is always `position &&& mask`, which
is strictly less than `capacity` (so below the element-array length), and
`Offer`, `Poll` and `PollNBatched` preserve the mask and the array length,
so no operation ever indexes out of bounds. -/
theorem claim_C10 (capacity : Nat) (h1 : 1 ≤ capacity) (h2 : capacity ≤ U64)
    (r : nodeBased α) (v : α) (n pos : Nat) :
    capOK capacity (newNodeBased capacity : nodeBased α) ∧
    (capOK capacity r →
      slotIdx r pos < capacity ∧
      capOK capacity (Offer r v).2 ∧
      capOK capacity (Poll r).2 ∧
      capOK capacity (PollNBatched r n).2.2) := by
  constructor
  · exact ⟨newNodeBased_mask capacity h1 h2, newNodeBased_length capacity⟩
  · rintro ⟨hm, hlen⟩
    refine ⟨?_, ?_, ?_, ?_⟩
    · unfold slotIdx
      rw [hm]
      have hle : pos &&& (capacity - 1) ≤ capacity - 1 := Nat.and_le_right
      omega
    · by_cases hc : (nodeAt r r.tail).step = r.tail
      · rw [Offer_of_step_eq hc]
        exact ⟨hm, by rw [setNode_length]; exact hlen⟩
      · rw [Offer_of_step_ne hc]
        exact ⟨hm, hlen⟩
    · by_cases hc : (nodeAt r r.head).step = (r.head + 1) % U64
      · rw [Poll_of_step_eq hc]
        exact ⟨hm, by rw [setNode_length]; exact hlen⟩
      · rw [Poll_of_step_ne hc]
        exact ⟨hm, hlen⟩
    · have hp := PollNBatched_pres r n
      exact ⟨by rw [hp.1]; exact hm, by rw [hp.2]; exact hlen⟩

/-- Claim C10 witness at the non-power-of-two capacity 3. -/
theorem claim_C10_witness :
    ((1 ≤ 3 ∧ 3 ≤ U64) ∧ capOK 3 (newNodeBased 3 : nodeBased Nat)) ∧
    capOK 3 (newNodeBased 3 : nodeBased Nat) ∧
    (slotIdx (newNodeBased 3 : nodeBased Nat) 12345 < 3 ∧
     capOK 3 (Offer (newNodeBased 3 : nodeBased Nat) 1).2 ∧
     capOK 3 (Poll (newNodeBased 3 : nodeBased Nat)).2 ∧
     capOK 3 (PollNBatched (newNodeBased 3 : nodeBased Nat) 2).2.2) :=
  ⟨⟨⟨by omega, by unfold U64; decide⟩, by unfold capOK; decide⟩,
    (claim_C10 3 (by omega) (by unfold U64; decide) (newNodeBased 3 : nodeBased Nat)
      1 2 12345).1,
    (claim_C10 3 (by omega) (by unfold U64; decide) (newNodeBased 3 : nodeBased Nat)
      1 2 12345).2 (by unfold capOK; decide)⟩

end lfring
